import Mathlib

/-!
# Verification of the history-tools key codec and query engine

Shallow embedding of `src/state_history_kv.hpp` and
`src/wasm_ql_rocksdb_plugin.cpp`.  Byte vectors (`std::vector<char>`,
compared unsigned bytewise by the store) are modelled as `List Nat` whose
entries are below 256; machine integers are `Nat` with explicit bounds.
-/

/-- Byte-lexicographic three-way comparison, the order the underlying
store (rocksdb with the default comparator) applies to keys. -/
def bytesCmp : List Nat → List Nat → Ordering
  | [], [] => .eq
  | [], _ :: _ => .lt
  | _ :: _, [] => .gt
  | a :: as, b :: bs => if a < b then .lt else if b < a then .gt else bytesCmp as bs

/-- Natural-order three-way comparison on `Nat`, the `cmp` of the spec. -/
def natCmp (a b : Nat) : Ordering := if a < b then .lt else if b < a then .gt else .eq

/-- The canonical little-endian serialized form of a `w`-byte unsigned
scalar, as written by `abieos::native_to_bin` (least significant byte
first). -/
def leBytes : Nat → Nat → List Nat
  | 0, _ => []
  | w + 1, v => v % 256 :: leBytes w (v / 256)

/-- Value of a little-endian byte list (as read by `abieos::bin_to_native`
for unsigned scalars). -/
def leVal : List Nat → Nat
  | [] => 0
  | b :: rest => b + 256 * leVal rest

/-- Value of a big-endian byte list. -/
def beVal (l : List Nat) : Nat := leVal l.reverse

/-- `native_to_bin_key` for a `w`-byte unsigned scalar: `fixup_key`
reverses the bytes written by `abieos::native_to_bin`, turning the
canonical little-endian form into big-endian.  (In the source the bytes
are appended to a destination vector; appending is modelled with `++` at
the call sites.)  The widths 1, 2, 4, 8, 16, 32 instantiate the supported
key types `uint8..uint64`, `uint128`, `name`, `checksum256`, whose
natural order is the numeric value of their canonical serialized form. -/
def native_to_bin_key (w v : Nat) : List Nat := (leBytes w v).reverse

/-- `bin_to_native_key` for a `w`-byte unsigned scalar: checks that `w`
bytes remain, takes them, reverses them back to little-endian and reads
the value with `abieos::bin_to_native`; returns the value and the rest of
the input buffer, or `none` on the "key deserialization error" throw. -/
def bin_to_native_key (w : Nat) (b : List Nat) : Option (Nat × List Nat) :=
  if b.length < w then none
  else some (leVal ((b.take w).reverse), b.drop w)

theorem leBytes_length (w v : Nat) : (leBytes w v).length = w := by
  induction w generalizing v with
  | zero => rfl
  | succ k ih => simp [leBytes, ih]

theorem leBytes_mem_lt (w v : Nat) : ∀ b ∈ leBytes w v, b < 256 := by
  induction w generalizing v with
  | zero => intro b hb; simp [leBytes] at hb
  | succ k ih =>
    intro b hb
    simp only [leBytes, List.mem_cons] at hb
    rcases hb with h | h
    · omega
    · exact ih _ b h

theorem leVal_leBytes (w v : Nat) (h : v < 256 ^ w) : leVal (leBytes w v) = v := by
  induction w generalizing v with
  | zero => simp [leBytes, leVal]; omega
  | succ k ih =>
    have hdiv : v / 256 < 256 ^ k := by
      rw [Nat.div_lt_iff_lt_mul (by norm_num)]
      calc v < 256 ^ (k + 1) := h
        _ = 256 ^ k * 256 := by ring
    simp only [leBytes, leVal, ih (v / 256) hdiv]
    omega

theorem leVal_append (p q : List Nat) :
    leVal (p ++ q) = leVal p + leVal q * 256 ^ p.length := by
  induction p with
  | nil => simp [leVal]
  | cons b rest ih =>
    simp only [List.cons_append, leVal, List.length_cons, List.append_eq]
    rw [ih]
    ring

theorem beVal_append (x y : List Nat) :
    beVal (x ++ y) = beVal x * 256 ^ y.length + beVal y := by
  simp only [beVal, List.reverse_append, leVal_append, List.length_reverse]
  ring

theorem beVal_cons (b : Nat) (rest : List Nat) :
    beVal (b :: rest) = b * 256 ^ rest.length + beVal rest := by
  have : b :: rest = [b] ++ rest := rfl
  rw [this, beVal_append]
  simp [beVal, leVal]

theorem beVal_lt (l : List Nat) (h : ∀ b ∈ l, b < 256) : beVal l < 256 ^ l.length := by
  induction l with
  | nil => simp [beVal, leVal]
  | cons b rest ih =>
    have hb : b < 256 := h b (List.mem_cons_self b rest)
    have hrest := ih (fun x hx => h x (List.mem_cons_of_mem b hx))
    rw [beVal_cons, List.length_cons, pow_succ]
    calc b * 256 ^ rest.length + beVal rest
        < b * 256 ^ rest.length + 256 ^ rest.length := by omega
      _ = (b + 1) * 256 ^ rest.length := by ring
      _ ≤ 256 * 256 ^ rest.length := by
          exact Nat.mul_le_mul_right _ (by omega)
      _ = 256 ^ rest.length * 256 := by ring

theorem beVal_native_to_bin_key (w v : Nat) (h : v < 256 ^ w) :
    beVal (native_to_bin_key w v) = v := by
  simp [beVal, native_to_bin_key, List.reverse_reverse, leVal_leBytes w v h]

theorem native_to_bin_key_length (w v : Nat) : (native_to_bin_key w v).length = w := by
  simp [native_to_bin_key, leBytes_length]

theorem native_to_bin_key_mem_lt (w v : Nat) : ∀ b ∈ native_to_bin_key w v, b < 256 := by
  intro b hb
  rw [native_to_bin_key, List.mem_reverse] at hb
  exact leBytes_mem_lt w v b hb

theorem natCmp_eq_lt {a b : Nat} : natCmp a b = .lt ↔ a < b := by
  unfold natCmp
  split
  · simp_all
  · split <;> simp_all

theorem natCmp_eq_gt {a b : Nat} : natCmp a b = .gt ↔ b < a := by
  unfold natCmp
  split
  · constructor
    · intro h; cases h
    · omega
  · split <;> simp_all

theorem natCmp_add_left (c a b : Nat) : natCmp (c + a) (c + b) = natCmp a b := by
  unfold natCmp
  rcases Nat.lt_trichotomy a b with h | h | h
  · simp [h, Nat.add_lt_add_left h c, Nat.lt_asymm h]
  · simp [h]
  · have h2 : ¬ a < b := Nat.lt_asymm h
    simp [h, h2, Nat.add_lt_add_left h c, fun hh => Nat.lt_asymm (Nat.add_lt_add_left h c) hh]

/-- On equal-length byte lists whose entries are actual bytes,
byte-lexicographic comparison coincides with comparison of the
big-endian values. -/
theorem bytesCmp_eq_natCmp_beVal (l1 l2 : List Nat) (hlen : l1.length = l2.length)
    (h1 : ∀ b ∈ l1, b < 256) (h2 : ∀ b ∈ l2, b < 256) :
    bytesCmp l1 l2 = natCmp (beVal l1) (beVal l2) := by
  induction l1 generalizing l2 with
  | nil =>
    cases l2 with
    | nil => rfl
    | cons b bs => simp at hlen
  | cons a as ih =>
    cases l2 with
    | nil => simp at hlen
    | cons b bs =>
      have hlen' : as.length = bs.length := by simpa using hlen
      have ha : a < 256 := h1 a (List.mem_cons_self a as)
      have hb : b < 256 := h2 b (List.mem_cons_self b bs)
      have has := fun x hx => h1 x (List.mem_cons_of_mem a hx)
      have hbs := fun x hx => h2 x (List.mem_cons_of_mem b hx)
      have hva : beVal as < 256 ^ as.length := beVal_lt as has
      have hvb : beVal bs < 256 ^ bs.length := beVal_lt bs hbs
      rw [beVal_cons, beVal_cons, ← hlen']
      simp only [bytesCmp]
      rcases Nat.lt_trichotomy a b with hab | hab | hab
      · have : a * 256 ^ as.length + beVal as < b * 256 ^ as.length + beVal bs := by
          calc a * 256 ^ as.length + beVal as
              < a * 256 ^ as.length + 256 ^ as.length := by omega
            _ = (a + 1) * 256 ^ as.length := by ring
            _ ≤ b * 256 ^ as.length := Nat.mul_le_mul_right _ (by omega)
            _ ≤ b * 256 ^ as.length + beVal bs := Nat.le_add_right _ _
        simp [hab, natCmp_eq_lt.mpr this]
      · subst hab
        have hnl : ¬ a < a := Nat.lt_irrefl a
        simp only [hnl, if_false]
        rw [natCmp_add_left]
        exact ih _ hlen' has hbs
      · have : b * 256 ^ as.length + beVal bs < a * 256 ^ as.length + beVal as := by
          rw [hlen']
          calc b * 256 ^ bs.length + beVal bs
              < b * 256 ^ bs.length + 256 ^ bs.length := by omega
            _ = (b + 1) * 256 ^ bs.length := by ring
            _ ≤ a * 256 ^ bs.length := Nat.mul_le_mul_right _ (by omega)
            _ ≤ a * 256 ^ bs.length + beVal as := Nat.le_add_right _ _
        have hnab : ¬ a < b := Nat.lt_asymm hab
        simp [hnab, hab, natCmp_eq_gt.mpr this]

/-- Comparing two lists sharing a common prefix reduces to comparing the
tails. -/
theorem bytesCmp_append_left (p a b : List Nat) :
    bytesCmp (p ++ a) (p ++ b) = bytesCmp a b := by
  induction p with
  | nil => rfl
  | cons h t ih => simp [bytesCmp, Nat.lt_irrefl, ih]

/-- C1: for every supported key scalar type (modelled by its key width
`w`: 1, 2, 4, 8 for `uint8..uint64`, 16 for `uint128`, 8 for `name`, 32
for `checksum256`) and values `a`, `b` of that type, the natural-order
comparison of the values equals the byte-lexicographic comparison of
their `native_to_bin_key` encodings; in particular `a < b` exactly when
`encode_key a` is byte-lexicographically below `encode_key b`. -/
theorem native_to_bin_key_order_equiv (w a b : Nat) (ha : a < 256 ^ w) (hb : b < 256 ^ w) :
    bytesCmp (native_to_bin_key w a) (native_to_bin_key w b) = natCmp a b
    ∧ (a < b ↔ bytesCmp (native_to_bin_key w a) (native_to_bin_key w b) = Ordering.lt) := by
  have hcmp : bytesCmp (native_to_bin_key w a) (native_to_bin_key w b) = natCmp a b := by
    rw [bytesCmp_eq_natCmp_beVal _ _
        (by rw [native_to_bin_key_length, native_to_bin_key_length])
        (native_to_bin_key_mem_lt w a) (native_to_bin_key_mem_lt w b),
      beVal_native_to_bin_key w a ha, beVal_native_to_bin_key w b hb]
  exact ⟨hcmp, by rw [hcmp]; exact natCmp_eq_lt.symm⟩

theorem native_to_bin_key_order_equiv_witness :
    bytesCmp (native_to_bin_key 4 1) (native_to_bin_key 4 256) = natCmp 1 256
    ∧ (1 < 256 ↔ bytesCmp (native_to_bin_key 4 1) (native_to_bin_key 4 256) = Ordering.lt) :=
  native_to_bin_key_order_equiv 4 1 256 (by norm_num) (by norm_num)

/-- C4: decoding is a left inverse of key encoding: `bin_to_native_key`
applied to a buffer starting with `native_to_bin_key w v` returns `v` and
consumes exactly the `w` key bytes. -/
theorem bin_to_native_key_round_trip (w v : Nat) (rest : List Nat) (h : v < 256 ^ w) :
    bin_to_native_key w (native_to_bin_key w v ++ rest) = some (v, rest) := by
  have hlen : (native_to_bin_key w v).length = w := native_to_bin_key_length w v
  have hnot : ¬ (native_to_bin_key w v ++ rest).length < w := by
    rw [List.length_append, hlen]; omega
  rw [bin_to_native_key, if_neg hnot, List.take_left' hlen, List.drop_left' hlen,
    native_to_bin_key, List.reverse_reverse, leVal_leBytes w v h]

theorem bin_to_native_key_round_trip_witness :
    bin_to_native_key 2 (native_to_bin_key 2 300 ++ [7]) = some (300, [7]) :=
  bin_to_native_key_round_trip 2 300 [7] (by norm_num)

/-! ## State-index suffix (`append_table_index_state_suffix`) -/

/-- Bitwise complement of a `uint32`, the `~block` of the source. -/
def compl32 (block : Nat) : Nat := 4294967295 - block % 4294967296

/-- Serialized form of a C++ `bool` (one byte, `0x00` or `0x01`). -/
def bool_byte (b : Bool) : Nat := if b then 1 else 0

/-- `append_table_index_state_suffix(dest, block, present)`: appends
`native_to_bin_key(~block)` followed by `native_to_bin_key(!present)`. -/
def append_table_index_state_suffix (dest : List Nat) (block : Nat) (present : Bool) :
    List Nat :=
  (dest ++ native_to_bin_key 4 (compl32 block)) ++ native_to_bin_key 1 (bool_byte (!present))

theorem beVal_state_suffix (block : Nat) (present : Bool) :
    beVal (native_to_bin_key 4 (compl32 block) ++ native_to_bin_key 1 (bool_byte (!present)))
      = compl32 block * 256 + bool_byte (!present) := by
  have h32 : compl32 block < 256 ^ 4 := by unfold compl32; omega
  have h1 : bool_byte (!present) < 256 ^ 1 := by cases present <;> simp [bool_byte]
  rw [beVal_append, native_to_bin_key_length, beVal_native_to_bin_key 4 _ h32,
    beVal_native_to_bin_key 1 _ h1]
  norm_num

theorem state_suffix_length (block : Nat) (present : Bool) :
    (native_to_bin_key 4 (compl32 block) ++ native_to_bin_key 1 (bool_byte (!present))).length
      = 5 := by
  rw [List.length_append, native_to_bin_key_length, native_to_bin_key_length]

theorem state_suffix_mem_lt (block : Nat) (present : Bool) :
    ∀ b ∈ native_to_bin_key 4 (compl32 block) ++ native_to_bin_key 1 (bool_byte (!present)),
      b < 256 := by
  intro b hb
  rcases List.mem_append.mp hb with h | h
  · exact native_to_bin_key_mem_lt _ _ b h
  · exact native_to_bin_key_mem_lt _ _ b h

/-- C3: with a fixed index-field prefix, the `(~block_num, !present)`
suffix orders state-index entries newest block first: for `m < n` the
entry of block `n` sorts strictly before the entry of block `m`, and at
the same block the `present = true` entry sorts strictly before the
`present = false` entry. -/
theorem append_table_index_state_suffix_order (pfx : List Nat) (m n : Nat) (pm pn : Bool)
    (hmn : m < n) (hn : n < 4294967296) :
    bytesCmp (append_table_index_state_suffix pfx n pn)
        (append_table_index_state_suffix pfx m pm) = Ordering.lt
    ∧ bytesCmp (append_table_index_state_suffix pfx m true)
        (append_table_index_state_suffix pfx m false) = Ordering.lt := by
  have key : ∀ (b1 b2 : Nat) (p1 p2 : Bool),
      compl32 b1 * 256 + bool_byte (!p1) < compl32 b2 * 256 + bool_byte (!p2) →
      bytesCmp (append_table_index_state_suffix pfx b1 p1)
        (append_table_index_state_suffix pfx b2 p2) = Ordering.lt := by
    intro b1 b2 p1 p2 hv
    unfold append_table_index_state_suffix
    rw [List.append_assoc, List.append_assoc, bytesCmp_append_left,
      bytesCmp_eq_natCmp_beVal _ _
        (by rw [state_suffix_length, state_suffix_length])
        (state_suffix_mem_lt b1 p1) (state_suffix_mem_lt b2 p2),
      beVal_state_suffix, beVal_state_suffix]
    exact natCmp_eq_lt.mpr hv
  constructor
  · apply key
    have hc : compl32 n < compl32 m := by
      unfold compl32
      have hmm : m % 4294967296 = m := Nat.mod_eq_of_lt (by omega)
      have hnn : n % 4294967296 = n := Nat.mod_eq_of_lt hn
      omega
    have hb1 : bool_byte (!pn) < 256 := by cases pn <;> simp [bool_byte]
    omega
  · apply key
    simp [bool_byte]

theorem append_table_index_state_suffix_order_witness :
    bytesCmp (append_table_index_state_suffix [112] 9 false)
        (append_table_index_state_suffix [112] 5 true) = Ordering.lt
    ∧ bytesCmp (append_table_index_state_suffix [112] 5 true)
        (append_table_index_state_suffix [112] 5 false) = Ordering.lt :=
  append_table_index_state_suffix_order [112] 5 9 true false (by norm_num) (by norm_num)

/-! ## `inc_key` -/

/-- The carry loop of `inc_key`, written on the reversed key (the source
iterates `rbegin()` to `rend()`): increment the current byte modulo 256;
stop as soon as an increment does not wrap to zero. -/
def inc_key_aux : List Nat → List Nat
  | [] => []
  | b :: rest => if (b + 1) % 256 = 0 then 0 :: inc_key_aux rest else (b + 1) % 256 :: rest

/-- `inc_key`: adds 1 to the key viewed as a big-endian integer,
propagating carry from the last byte toward the first. -/
def inc_key (k : List Nat) : List Nat := (inc_key_aux k.reverse).reverse

theorem inc_key_aux_length (l : List Nat) : (inc_key_aux l).length = l.length := by
  induction l with
  | nil => rfl
  | cons b rest ih =>
    unfold inc_key_aux
    split <;> simp [ih]

theorem inc_key_aux_mem_lt (l : List Nat) (h : ∀ b ∈ l, b < 256) :
    ∀ b ∈ inc_key_aux l, b < 256 := by
  induction l with
  | nil => intro b hb; simp [inc_key_aux] at hb
  | cons a rest ih =>
    intro b hb
    have hrest := fun x hx => h x (List.mem_cons_of_mem a hx)
    unfold inc_key_aux at hb
    split at hb <;> rcases List.mem_cons.mp hb with h0 | h0
    · omega
    · exact ih hrest b h0
    · subst h0; omega
    · exact hrest b h0

theorem inc_key_aux_leVal (l : List Nat) (hb : ∀ b ∈ l, b < 256) (hne : ∃ b ∈ l, b ≠ 255) :
    leVal (inc_key_aux l) = leVal l + 1 := by
  induction l with
  | nil => simp at hne
  | cons a rest ih =>
    have ha : a < 256 := hb a (List.mem_cons_self a rest)
    have hrest := fun x hx => hb x (List.mem_cons_of_mem a hx)
    by_cases h255 : a = 255
    · subst h255
      have hwrap : (255 + 1) % 256 = 0 := by norm_num
      have hex : ∃ b ∈ rest, b ≠ 255 := by
        rcases hne with ⟨b, hbmem, hbne⟩
        rcases List.mem_cons.mp hbmem with h0 | h0
        · omega
        · exact ⟨b, h0, hbne⟩
      simp only [inc_key_aux, hwrap, if_pos rfl, leVal, ih hrest hex]
      ring
    · have hmod : (a + 1) % 256 = a + 1 := Nat.mod_eq_of_lt (by omega)
      have hnz : ¬ (a + 1) % 256 = 0 := by omega
      simp only [inc_key_aux, hnz, if_neg, leVal, hmod]
      ring

theorem inc_key_aux_all_255 (n : Nat) :
    inc_key_aux (List.replicate n 255) = List.replicate n 0 := by
  induction n with
  | zero => rfl
  | succ k ih => simp [List.replicate_succ, inc_key_aux, ih]

/-- C6: for any non-empty key that is not all `0xFF` bytes, `inc_key`
preserves the length, adds exactly 1 to the big-endian value, is strictly
greater byte-lexicographically, and is the immediate successor among byte
strings of the same length; a key of all `0xFF` bytes silently wraps to
all zero bytes. -/
theorem inc_key_props :
    (∀ k : List Nat, k ≠ [] → (∀ b ∈ k, b < 256) → (∃ b ∈ k, b ≠ 255) →
      (inc_key k).length = k.length
      ∧ beVal (inc_key k) = beVal k + 1
      ∧ bytesCmp k (inc_key k) = Ordering.lt
      ∧ (∀ j : List Nat, j.length = k.length → (∀ b ∈ j, b < 256) →
          bytesCmp k j = Ordering.lt → bytesCmp (inc_key k) j ≠ Ordering.gt))
    ∧ (∀ n : Nat, inc_key (List.replicate n 255) = List.replicate n 0) := by
  constructor
  · intro k hne hb hnot
    have hbrev : ∀ b ∈ k.reverse, b < 256 := by
      intro b hbm; exact hb b (List.mem_reverse.mp hbm)
    have hnotrev : ∃ b ∈ k.reverse, b ≠ 255 := by
      rcases hnot with ⟨b, hbm, hbne⟩
      exact ⟨b, List.mem_reverse.mpr hbm, hbne⟩
    have hlen : (inc_key k).length = k.length := by
      rw [inc_key, List.length_reverse, inc_key_aux_length, List.length_reverse]
    have hval : beVal (inc_key k) = beVal k + 1 := by
      rw [inc_key, beVal, List.reverse_reverse, inc_key_aux_leVal k.reverse hbrev hnotrev]
      rfl
    have hmem : ∀ b ∈ inc_key k, b < 256 := by
      intro b hbm
      rw [inc_key, List.mem_reverse] at hbm
      exact inc_key_aux_mem_lt k.reverse hbrev b hbm
    refine ⟨hlen, hval, ?_, ?_⟩
    · rw [bytesCmp_eq_natCmp_beVal k (inc_key k) hlen.symm hb hmem, hval]
      exact natCmp_eq_lt.mpr (by omega)
    · intro j hjlen hjb hcmp
      rw [bytesCmp_eq_natCmp_beVal k j (by omega) hb hjb] at hcmp
      have hkj : beVal k < beVal j := natCmp_eq_lt.mp hcmp
      rw [bytesCmp_eq_natCmp_beVal (inc_key k) j (by omega) hmem hjb, hval]
      intro hgt
      have := natCmp_eq_gt.mp hgt
      omega
  · intro n
    rw [inc_key, List.reverse_replicate, inc_key_aux_all_255, List.reverse_replicate]

theorem inc_key_props_witness :
    (inc_key [0, 255]).length = ([0, 255] : List Nat).length
    ∧ beVal (inc_key [0, 255]) = beVal [0, 255] + 1
    ∧ bytesCmp [0, 255] (inc_key [0, 255]) = Ordering.lt
    ∧ (∀ j : List Nat, j.length = ([0, 255] : List Nat).length → (∀ b ∈ j, b < 256) →
        bytesCmp [0, 255] j = Ordering.lt → bytesCmp (inc_key [0, 255]) j ≠ Ordering.gt) :=
  inc_key_props.1 [0, 255] (by decide) (by decide) (by decide)

/-! ## `defs::config::prepare` byte positions -/

/-- The byte-offset loop of `defs::config::prepare`: walking the fields
of a table (given by their `get_fixed_size()` results), assign each field
the accumulated position, then stop right after the first field whose
fixed size is 0, leaving the remaining fields with `byte_position`
unset. -/
def compute_byte_positions : Nat → List Nat → List (Option Nat)
  | _, [] => []
  | pos, s :: rest =>
    some pos :: (if s = 0 then rest.map (fun _ => none) else compute_byte_positions (pos + s) rest)

theorem compute_byte_positions_get (sizes : List Nat) (pos i : Nat) (hi : i < sizes.length) :
    ((∀ j, j < i → sizes[j]? ≠ some 0) →
      (compute_byte_positions pos sizes)[i]? = some (some (pos + (sizes.take i).sum)))
    ∧ ((∃ j, j < i ∧ sizes[j]? = some 0) →
      (compute_byte_positions pos sizes)[i]? = some none) := by
  induction sizes generalizing pos i with
  | nil => simp at hi
  | cons s rest ih =>
    cases i with
    | zero =>
      constructor
      · intro _
        simp [compute_byte_positions]
      · rintro ⟨j, hj, _⟩
        omega
    | succ i' =>
      have hi' : i' < rest.length := by simpa using hi
      by_cases hs : s = 0
      · subst hs
        constructor
        · intro h
          exact absurd (h 0 (Nat.succ_pos i')) (by simp)
        · intro _
          have hcbp : compute_byte_positions pos (0 :: rest) =
              some pos :: rest.map (fun _ => none) := by
            simp [compute_byte_positions]
          rw [hcbp, List.getElem?_cons_succ, List.getElem?_map,
            List.getElem?_eq_getElem hi']
          rfl
      · have ihspec := ih (pos + s) i' hi'
        constructor
        · intro h
          have hrest : ∀ j, j < i' → rest[j]? ≠ some 0 := by
            intro j hj
            have := h (j + 1) (by omega)
            simpa using this
          simp only [compute_byte_positions, if_neg hs, List.getElem?_cons_succ]
          rw [ihspec.1 hrest]
          have : (s :: rest).take (i' + 1) = s :: rest.take i' := rfl
          rw [this]
          simp [Nat.add_assoc]
        · rintro ⟨j, hj, hj0⟩
          cases j with
          | zero => simp at hj0; omega
          | succ j' =>
            have hj' : j' < i' := by omega
            have hj0' : rest[j']? = some 0 := by simpa using hj0
            simp only [compute_byte_positions, if_neg hs, List.getElem?_cons_succ]
            exact ihspec.2 ⟨j', hj', hj0'⟩

/-- C10: after `prepare`, field `i` of a table has its `byte_position`
set if and only if every field before it has nonzero fixed size, and in
that case the position equals the sum of the fixed sizes of the preceding
fields; in particular the first variable-width field itself still
receives a position, and exactly the fields strictly after it are left
unset. -/
theorem compute_byte_positions_spec (sizes : List Nat) (i : Nat) (hi : i < sizes.length) :
    ((∀ j, j < i → sizes[j]? ≠ some 0) →
      (compute_byte_positions 0 sizes)[i]? = some (some ((sizes.take i).sum)))
    ∧ ((∃ j, j < i ∧ sizes[j]? = some 0) →
      (compute_byte_positions 0 sizes)[i]? = some none) := by
  have h := compute_byte_positions_get sizes 0 i hi
  simpa using h

theorem compute_byte_positions_spec_witness :
    (compute_byte_positions 0 [4, 8, 0, 2])[2]? = some (some 12)
    ∧ (compute_byte_positions 0 [4, 8, 0, 2])[3]? = some none :=
  ⟨by
      have h := (compute_byte_positions_spec [4, 8, 0, 2] 2 (by norm_num)).1 (by decide)
      simpa using h,
    (compute_byte_positions_spec [4, 8, 0, 2] 3 (by norm_num)).2 ⟨2, by norm_num, by decide⟩⟩

/-! ## Field extraction (`append_fields`) and the query engine -/

/-- The error kinds of the query path that the claims mention. -/
inductive QueryError where
  | unsupportedKeyType
  | fieldPositionUnknown
  | keyPositionOutOfRange
  | deserializeError
  deriving DecidableEq, Repr

/-- A `kv::key` as consumed by `append_fields`: the referenced field's
optional `byte_position` and the fixed byte width of its type
(`type_obj->get_fixed_size()`). -/
structure KvField where
  byte_position : Option Nat
  fixed_size : Nat
  deriving DecidableEq, Repr

/-- `type::bin_to_bin` for a fixed-width scalar: re-serialize the value
parsed from the buffer, i.e. copy its `w` canonical bytes onto `dest`;
fails if the buffer is too short. -/
def type_bin_to_bin (w : Nat) (dest bin : List Nat) : Except QueryError (List Nat) :=
  if bin.length < w then .error .deserializeError else .ok (dest ++ bin.take w)

/-- `type::bin_to_bin_key` for a fixed-width unsigned scalar: like
`type_bin_to_bin` but `fixup_key` reverses the appended bytes. -/
def type_bin_to_bin_key (w : Nat) (dest bin : List Nat) : Except QueryError (List Nat) :=
  if bin.length < w then .error .deserializeError else .ok (dest ++ (bin.take w).reverse)

/-- One iteration of `rocksdb_query_session::append_fields`: fail with
`fieldPositionUnknown` when the field has no `byte_position`; fail with
`keyPositionOutOfRange` when the position exceeds the payload length;
otherwise append the field bytes (key form iff `xform_key`). -/
def append_field (dest src : List Nat) (k : KvField) (xform_key : Bool) :
    Except QueryError (List Nat) :=
  match k.byte_position with
  | none => .error .fieldPositionUnknown
  | some p =>
    if src.length < p then .error .keyPositionOutOfRange
    else if xform_key then type_bin_to_bin_key k.fixed_size dest (src.drop p)
    else type_bin_to_bin k.fixed_size dest (src.drop p)

/-- `rocksdb_query_session::append_fields`: extract each listed field
from the payload `src` in turn, appending onto `dest`; the first failure
aborts the loop. -/
def append_fields (dest src : List Nat) : List KvField → Bool → Except QueryError (List Nat)
  | [], _ => .ok dest
  | k :: rest, xform_key =>
    match append_field dest src k xform_key with
    | .error e => .error e
    | .ok d => append_fields d src rest xform_key

/-- C9: `append_fields` fails on a field with `fieldPositionUnknown`
exactly when that field's `byte_position` is unset, and with
`keyPositionOutOfRange` exactly when the set position strictly exceeds
the payload length; on success nothing but the field bytes is appended
(and on failure the `Except` carries no partial output for the field). -/
theorem append_field_error_conditions :
    ∀ (dest src : List Nat) (k : KvField) (x : Bool),
      (append_field dest src k x = .error QueryError.fieldPositionUnknown ↔
        k.byte_position = none)
      ∧ (append_field dest src k x = .error QueryError.keyPositionOutOfRange ↔
        ∃ p, k.byte_position = some p ∧ src.length < p)
      ∧ (∀ out, append_field dest src k x = .ok out → ∃ tail, out = dest ++ tail) := by
  intro dest src k x
  rcases k with ⟨bp, w⟩
  cases bp with
  | none =>
    refine ⟨by simp [append_field], ?_, ?_⟩
    · simp [append_field]
    · intro out h
      simp [append_field] at h
  | some p =>
    by_cases hp : src.length < p
    · refine ⟨?_, ?_, ?_⟩
      · simp [append_field, hp]
      · simp [append_field, hp]
      · intro out h
        simp [append_field, hp] at h
    · by_cases hw : src.length - p < w
      · have key2 : append_field dest src ⟨some p, w⟩ x =
            .error .deserializeError := by
          cases x <;>
            simp [append_field, hp, type_bin_to_bin, type_bin_to_bin_key,
              List.length_drop, hw]
        refine ⟨?_, ?_, ?_⟩
        · rw [key2]; simp
        · rw [key2]
          constructor
          · intro h
            exact absurd h (by simp)
          · rintro ⟨q, hq, hlt⟩
            injection hq with hq2
            omega
        · intro out h
          rw [key2] at h
          exact absurd h (by simp)
      · have key3 : append_field dest src ⟨some p, w⟩ x =
            .ok (dest ++ (if x then ((src.drop p).take w).reverse
              else (src.drop p).take w)) := by
          cases x <;>
            simp [append_field, hp, type_bin_to_bin, type_bin_to_bin_key,
              List.length_drop, hw]
        refine ⟨?_, ?_, ?_⟩
        · rw [key3]; simp
        · rw [key3]
          constructor
          · intro h
            exact absurd h (by simp)
          · rintro ⟨q, hq, hlt⟩
            injection hq with hq2
            omega
        · intro out h
          rw [key3] at h
          injection h with h2
          exact ⟨_, h2.symm⟩

theorem append_field_error_conditions_witness :
    (append_field [] [1, 2] ⟨none, 4⟩ true = .error QueryError.fieldPositionUnknown ↔
      (⟨none, 4⟩ : KvField).byte_position = none)
    ∧ (append_field [] [1, 2] ⟨none, 4⟩ true = .error QueryError.keyPositionOutOfRange ↔
      ∃ p, (⟨none, 4⟩ : KvField).byte_position = some p ∧ ([1, 2] : List Nat).length < p)
    ∧ (∀ out, append_field [] [1, 2] ⟨none, 4⟩ true = .ok out → ∃ tail, out = [] ++ tail) :=
  append_field_error_conditions [] [1, 2] ⟨none, 4⟩ true

/-! ## Join handling in `query_database` -/

/-- The join step of `query_database` for one outer row.  The outer row
(`delta_value`) has already been pushed onto `rows`; `join_result` is the
value fetched for the first entry found by the descending join sub-scan
(`none` when the sub-scan finds no entry at or before `max_block`).  On a
miss the row just pushed is popped (`rows.pop_back()`); on a hit the join
row's `fields_from_join` are appended to that same row in canonical
(non-key) form, `xform_key = false`. -/
def process_join (rows : List (List Nat)) (delta_value : List Nat)
    (join_result : Option (List Nat)) (fields_from_join : List KvField) :
    Except QueryError (List (List Nat)) :=
  match join_result with
  | none => .ok ((rows ++ [delta_value]).dropLast)
  | some join_delta_value =>
    match append_fields delta_value join_delta_value fields_from_join false with
    | .error e => .error e
    | .ok row => .ok (rows ++ [row])

/-- C8: on a join miss the outer row that was appended is removed, so the
result list is exactly the previous `rows`; on a join hit the
`fields_from_join` bytes are appended to the outer row in canonical
non-key form (for a field at offset `p` of width `w`, the unreversed
payload slice). -/
theorem process_join_semantics :
    ∀ (rows : List (List Nat)) (dv jv row : List Nat) (ffj : List KvField),
      process_join rows dv none ffj = .ok rows
      ∧ (append_fields dv jv ffj false = .ok row →
          process_join rows dv (some jv) ffj = .ok (rows ++ [row]))
      ∧ (∀ p w, p + w ≤ jv.length →
          append_fields dv jv [⟨some p, w⟩] false = .ok (dv ++ (jv.drop p).take w)) := by
  intro rows dv jv row ffj
  refine ⟨?_, ?_, ?_⟩
  · simp [process_join, List.dropLast_concat]
  · intro h
    simp [process_join, h]
  · intro p w hpw
    have hp : ¬ jv.length < p := by omega
    have hw : ¬ jv.length - p < w := by omega
    simp [append_fields, append_field, hp, type_bin_to_bin, List.length_drop, hw]

theorem process_join_semantics_witness :
    process_join [[5]] [1] none [⟨some 0, 1⟩] = .ok [[5]]
    ∧ (append_fields [1] [9, 8, 7] [⟨some 0, 1⟩] false = .ok [1, 9] →
        process_join [[5]] [1] (some [9, 8, 7]) [⟨some 0, 1⟩] = .ok ([[5]] ++ [[1, 9]]))
    ∧ (∀ p w, p + w ≤ ([9, 8, 7] : List Nat).length →
        append_fields [1] [9, 8, 7] [⟨some p, w⟩] false =
          .ok ([1] ++ (([9, 8, 7] : List Nat).drop p).take w)) :=
  process_join_semantics [[5]] [1] [9, 8, 7] [1, 9] [⟨some 0, 1⟩]

/-! ## Range-argument consumption in `query_database` -/

/-- `type::query_to_bin_key` for a fixed-width unsigned scalar: parse one
canonical value from the query stream (`w` bytes), append its key form
(the reversed bytes) to `dest`, and return the remaining stream; fails
with a deserialization error when the stream is too short. -/
def query_to_bin_key (w : Nat) (dest bin : List Nat) :
    Except QueryError (List Nat × List Nat) :=
  if bin.length < w then .error .deserializeError
  else .ok (dest ++ (bin.take w).reverse, bin.drop w)

/-- The `add_fields` lambda of `query_database`: run `query_to_bin_key`
once per range type (modelled by its width), threading the query
stream. -/
def add_fields : List Nat → List Nat → List Nat → Except QueryError (List Nat × List Nat)
  | dest, bin, [] => .ok (dest, bin)
  | dest, bin, w :: ws =>
    match query_to_bin_key w dest bin with
    | .error e => .error e
    | .ok (d, b) => add_fields d b ws

/-- The index-bound construction of `query_database`: starting from the
table-index prefix `pfx`, the source runs `add_fields(first, range_types)`
and then `add_fields(last, range_types)` on the same query stream, so the
whole lower-bound pass precedes the whole upper-bound pass. -/
def build_index_range (widths : List Nat) (pfx bin : List Nat) :
    Except QueryError (List Nat × List Nat × List Nat) :=
  match add_fields pfx bin widths with
  | .error e => .error e
  | .ok (first, bin1) =>
    match add_fields pfx bin1 widths with
    | .error e => .error e
    | .ok (last, bin2) => .ok (first, last, bin2)

/-- The range-argument layout asserted by the claim (and the spec):
for each range type in turn, one value for the lower bound and then one
value for the upper bound, interleaved. -/
def add_fields_interleaved :
    List Nat → List Nat → List Nat → List Nat → Except QueryError (List Nat × List Nat × List Nat)
  | first, last, bin, [] => .ok (first, last, bin)
  | first, last, bin, w :: ws =>
    match query_to_bin_key w first bin with
    | .error e => .error e
    | .ok (f, b1) =>
      match query_to_bin_key w last b1 with
      | .error e => .error e
      | .ok (l, b2) => add_fields_interleaved f l b2 ws

/-- Index-bound construction as the claim describes it. -/
def build_index_range_claimed (widths : List Nat) (pfx bin : List Nat) :
    Except QueryError (List Nat × List Nat × List Nat) :=
  add_fields_interleaved pfx pfx bin widths

/-- C2 counterexample: with two one-byte range types and the query stream
`[0, 1, 2, 3]`, the code reads the lower bounds from bytes `0, 1` and the
upper bounds from bytes `2, 3`, whereas the claimed interleaved layout
would put bytes `0, 2` in the lower bound and `1, 3` in the upper bound;
the two layouts disagree. -/
theorem build_index_range_not_interleaved :
    build_index_range [1, 1] [] [0, 1, 2, 3] = .ok ([0, 1], [2, 3], [])
    ∧ build_index_range_claimed [1, 1] [] [0, 1, 2, 3] = .ok ([0, 2], [1, 3], [])
    ∧ build_index_range [1, 1] [] [0, 1, 2, 3] ≠
        build_index_range_claimed [1, 1] [] [0, 1, 2, 3] := by
  refine ⟨rfl, rfl, ?_⟩
  intro h
  rw [show build_index_range [1, 1] [] [0, 1, 2, 3] = .ok ([0, 1], [2, 3], []) from rfl,
    show build_index_range_claimed [1, 1] [] [0, 1, 2, 3] = .ok ([0, 2], [1, 3], []) from rfl]
      at h
  simp at h

theorem add_fields_two_pass_split (widths : List Nat) :
    ∀ (dest bin : List Nat), widths.sum ≤ bin.length →
      ∃ d, add_fields dest bin widths = .ok (d, bin.drop widths.sum)
        ∧ add_fields dest (bin.take widths.sum) widths = .ok (d, []) := by
  induction widths with
  | nil =>
    intro dest bin _
    exact ⟨dest, by simp [add_fields], by simp [add_fields]⟩
  | cons w ws ih =>
    intro dest bin hlen
    rw [List.sum_cons] at hlen
    have hw : ¬ bin.length < w := by omega
    have hrest : ws.sum ≤ (bin.drop w).length := by
      rw [List.length_drop]; omega
    obtain ⟨d, hd1, hd2⟩ := ih (dest ++ (bin.take w).reverse) (bin.drop w) hrest
    refine ⟨d, ?_, ?_⟩
    · simp only [add_fields, List.sum_cons, query_to_bin_key, if_neg hw]
      rw [hd1, List.drop_drop]
    · have htlen : (bin.take (w + ws.sum)).length = w + ws.sum := by
        rw [List.length_take]; omega
      have hw2 : ¬ (bin.take (w + ws.sum)).length < w := by omega
      simp only [add_fields, List.sum_cons, query_to_bin_key, if_neg hw2]
      rw [List.take_take, show min w (w + ws.sum) = w by omega]
      rw [List.drop_take]
      have : w + ws.sum - w = ws.sum := by omega
      rw [this]
      exact hd2

/-- C2 as the code has it: `query_database` consumes the range arguments
in two full passes over the range types — first one value per range type
(in declared order) building the lower index bound, then one value per
range type building the upper bound — so the wire layout is all
lower-bound arguments followed by all upper-bound arguments. -/
theorem build_index_range_two_pass (widths pfx bin : List Nat)
    (h : widths.sum + widths.sum ≤ bin.length) :
    ∃ first last,
      build_index_range widths pfx bin =
        .ok (first, last, bin.drop (widths.sum + widths.sum))
      ∧ add_fields pfx (bin.take widths.sum) widths = .ok (first, [])
      ∧ add_fields pfx ((bin.drop widths.sum).take widths.sum) widths = .ok (last, []) := by
  obtain ⟨first, h1, h1t⟩ := add_fields_two_pass_split widths pfx bin (by omega)
  have hlen2 : widths.sum ≤ (bin.drop widths.sum).length := by
    rw [List.length_drop]; omega
  obtain ⟨last, h2, h2t⟩ := add_fields_two_pass_split widths pfx (bin.drop widths.sum) hlen2
  refine ⟨first, last, ?_, h1t, h2t⟩
  simp only [build_index_range, h1, h2, List.drop_drop]

theorem build_index_range_two_pass_witness :
    ∃ first last,
      build_index_range [1, 1] [7] [0, 1, 2, 3] =
        .ok (first, last, List.drop (List.sum [1, 1] + List.sum [1, 1]) [0, 1, 2, 3])
      ∧ add_fields [7] (List.take (List.sum [1, 1]) [0, 1, 2, 3]) [1, 1] = .ok (first, [])
      ∧ add_fields [7] (List.take (List.sum [1, 1]) (List.drop (List.sum [1, 1]) [0, 1, 2, 3]))
          [1, 1] = .ok (last, []) :=
  build_index_range_two_pass [1, 1] [7] [0, 1, 2, 3] (by norm_num)

/-! ## Result cap and the outer group scan -/

/-- `max_results` as computed by `query_database`:
`min(read_raw<uint32_t>(query_bin), query.max_results)`. -/
def effective_max_results (wire_cap declared_cap : Nat) : Nat := min wire_cap declared_cap

/-- Modelled from the spec: `rdb::for_each_subkey` is declared outside
the two source files; per the spec it visits the distinct index-field
groups of the range in ascending order and keeps scanning while the
callback returns `true`.  The callback of `query_database` processes the
group and returns `++num_results < max_results`; the function returns
the list of processed groups. -/
def outer_scan {α : Type} (max_results : Nat) : List α → Nat → List α
  | [], _ => []
  | g :: rest, num_results =>
    if num_results + 1 < max_results then g :: outer_scan max_results rest (num_results + 1)
    else [g]

/-- The whole outer scan of `query_database`: groups processed with the
effective result cap, starting from `num_results = 0`. -/
def query_scan {α : Type} (wire_cap declared_cap : Nat) (groups : List α) : List α :=
  outer_scan (effective_max_results wire_cap declared_cap) groups 0

/-- C7 counterexample: with a wire cap of 0 (so the effective cap
`min(0, 5)` is 0) and one matching group — more groups than the cap — the
scan still processes one group, not "exactly cap" (= 0) groups: the stop
check runs only after a group has been processed. -/
theorem query_scan_cap_zero :
    effective_max_results 0 5 = 0
    ∧ 0 < ([[1]] : List (List Nat)).length
    ∧ (query_scan 0 5 ([[1]] : List (List Nat))).length = 1
    ∧ (query_scan 0 5 ([[1]] : List (List Nat))).length ≠ effective_max_results 0 5 := by
  refine ⟨rfl, by norm_num, rfl, by decide⟩

theorem outer_scan_take (max_results : Nat) :
    ∀ (groups : List (List Nat)) (n : Nat), n < max_results →
      outer_scan max_results groups n = groups.take (max_results - n) := by
  intro groups
  induction groups with
  | nil => intro n _; simp [outer_scan]
  | cons g rest ih =>
    intro n hn
    by_cases hcont : n + 1 < max_results
    · rw [outer_scan, if_pos hcont, ih (n + 1) hcont]
      have : max_results - n = (max_results - (n + 1)) + 1 := by omega
      rw [this, List.take_succ_cons]
    · have : max_results - n = 1 := by omega
      rw [outer_scan, if_neg hcont, this, List.take_succ_cons, List.take_zero]

/-- C7 as the code has it: the effective cap is
`min(read_u32(query_bin), query.max_results)` and the outer scan counts
distinct index-field groups (not rows surviving the join); whenever the
effective cap is at least 1, the scan processes exactly the first
`min(cap, #groups)` groups and never reads the remaining entries — a cap
of 0 behaves like a cap of 1 because the stop check runs after each
group. -/
theorem query_scan_take_cap (wire_cap declared_cap : Nat) (groups : List (List Nat))
    (h : 1 ≤ effective_max_results wire_cap declared_cap) :
    query_scan wire_cap declared_cap groups =
      groups.take (effective_max_results wire_cap declared_cap)
    ∧ (query_scan wire_cap declared_cap groups).length =
      min (effective_max_results wire_cap declared_cap) groups.length := by
  have htake : query_scan wire_cap declared_cap groups =
      groups.take (effective_max_results wire_cap declared_cap) := by
    rw [query_scan, outer_scan_take _ groups 0 (by omega), Nat.sub_zero]
  exact ⟨htake, by rw [htake, List.length_take]⟩

theorem query_scan_take_cap_witness :
    query_scan 2 5 ([[10], [20], [30]] : List (List Nat)) =
      ([[10], [20], [30]] : List (List Nat)).take (effective_max_results 2 5)
    ∧ (query_scan 2 5 ([[10], [20], [30]] : List (List Nat))).length =
      min (effective_max_results 2 5) ([[10], [20], [30]] : List (List Nat)).length :=
  query_scan_take_cap 2 5 [[10], [20], [30]] (by decide)

/-! ## Typed key-encoding dispatch (`fixup_key`, `get_fixed_size`) -/

/-- The schema types registered in `abi_type_to_kv_type`. -/
inductive AbiType where
  | bool
  | varuint32
  | uint8
  | uint16
  | uint32
  | uint64
  | uint128
  | int8
  | int16
  | int32
  | int64
  | int128
  | float64
  | float128
  | name
  | string
  | time_point
  | time_point_sec
  | block_timestamp_type
  | checksum256
  | public_key
  | bytes
  | transaction_status
  deriving DecidableEq, Repr

/-- `std::is_unsigned_v` of the C++ type each schema type maps to: true
only for `bool` and the builtin unsigned integers; the abieos structs
(`uint128`, `name`, `checksum256`, the timestamps, `varuint32`, ...) and
the signed/enum/class types are not `is_unsigned`. -/
def is_unsigned : AbiType → Bool
  | .bool | .uint8 | .uint16 | .uint32 | .uint64 => true
  | _ => false

/-- The dispatch condition of `fixup_key<T>`:
`std::is_unsigned_v<T> || T == name || T == uint128 || T == checksum256`;
every other type takes the `throw std::runtime_error("unsupported key
type")` branch. -/
def fixup_key_supported (t : AbiType) : Bool :=
  is_unsigned t || t = .name || t = .uint128 || t = .checksum256

/-- `native_to_bin_key<T>` by type: reverse the canonical serialized
bytes when `fixup_key` supports `T`, otherwise fail with the
unsupported-key-type error before touching the payload. -/
def native_to_bin_key_typed (t : AbiType) (payload : List Nat) :
    Except QueryError (List Nat) :=
  if fixup_key_supported t then .ok payload.reverse else .error .unsupportedKeyType

/-- `get_fixed_size<T>`:
`std::is_integral_v<T> || T == name || T == uint128 || T == checksum256 ||
T == time_point || T == block_timestamp` selects `sizeof(T)`, everything
else reports 0.  Note `time_point_sec`, `int128`, `varuint32` and
`transaction_status` (an enum, not integral) all fall through to 0. -/
def get_fixed_size : AbiType → Nat
  | .bool => 1
  | .uint8 => 1
  | .uint16 => 2
  | .uint32 => 4
  | .uint64 => 8
  | .uint128 => 16
  | .int8 => 1
  | .int16 => 2
  | .int32 => 4
  | .int64 => 8
  | .name => 8
  | .checksum256 => 32
  | .time_point => 8
  | .block_timestamp_type => 4
  | _ => 0

/-- C5 counterexample: key-encoding each of the three timestamp types
fails with the unsupported-key-type error instead of succeeding with the
tick count encoded as an unsigned key. -/
theorem timestamp_key_encoding_fails :
    native_to_bin_key_typed .time_point [0, 0, 0, 0, 0, 0, 0, 0] =
      .error QueryError.unsupportedKeyType
    ∧ native_to_bin_key_typed .time_point_sec [0, 0, 0, 0] =
      .error QueryError.unsupportedKeyType
    ∧ native_to_bin_key_typed .block_timestamp_type [0, 0, 0, 0] =
      .error QueryError.unsupportedKeyType :=
  ⟨rfl, rfl, rfl⟩

/-- C5 as the code has it: `fixup_key` rejects all three timestamp types,
so key-encoding a timestamp always fails with the unsupported-key-type
error; `get_fixed_size` nevertheless reports fixed widths 8 for
`time_point` and 4 for `block_timestamp_type`, while `time_point_sec` is
treated as variable-width (0). -/
theorem timestamp_key_unsupported :
    (∀ s : List Nat, native_to_bin_key_typed .time_point s =
      .error QueryError.unsupportedKeyType)
    ∧ (∀ s : List Nat, native_to_bin_key_typed .time_point_sec s =
      .error QueryError.unsupportedKeyType)
    ∧ (∀ s : List Nat, native_to_bin_key_typed .block_timestamp_type s =
      .error QueryError.unsupportedKeyType)
    ∧ get_fixed_size .time_point = 8
    ∧ get_fixed_size .block_timestamp_type = 4
    ∧ get_fixed_size .time_point_sec = 0 :=
  ⟨fun _ => rfl, fun _ => rfl, fun _ => rfl, rfl, rfl, rfl⟩
